import Mathlib

/-!
Verification of the GubbinsMOS bitmap font generator
(src/displays/common/tools/gmos-display-fontgen.py).

The development shallowly embeds the font-encoding engine: the per-glyph
BDF parser (parseFontCharBDF), the font-level parser (parseFontBDF) and
the layout selector / encoder (formatFontData).  Text lines are embedded
at the token level (the Python code dispatches on line prefixes and then
parses decimal / hexadecimal integers; the embedding carries the parsed
values).  Python integers are Lean Int where they may be negative, Nat
where the source guarantees non-negativity (hexadecimal bitmap rows and
packed bytes).  Python floor division // is Int.fdiv, Python list
indexing (including negative-index wraparound and IndexError) is pyGet,
and dict access is an association list.  Fallible code (uncaught Python
exceptions abort the whole run) returns Option.
-/

namespace FontGen

/-- Python floor division by 8 of (w - 1), as used by the source in
expressions of the form ((charWidth - 1) // 8). -/
def byteClassPy (w : Int) : Int := Int.fdiv (w - 1) 8

/-- Ceiling of w / 8 (the byte-width class named by the specification),
computed through the identity ceil(w/8) = floor((w+7)/8). -/
def ceilDiv8 (w : Int) : Int := Int.fdiv (w + 7) 8

/-- Python list indexing: non-negative indices address from the front,
negative indices wrap from the back, anything else is an IndexError
(modelled as none). -/
def pyGet (l : List Nat) (i : Int) : Option Nat :=
  if 0 ≤ i then l[i.toNat]?
  else if 0 ≤ i + l.length then l[(i + l.length).toNat]?
  else none

/-- Dictionary lookup on an association list keyed by Int. -/
def lookupKV {α : Type} : List (Int × α) → Int → Option α
  | [], _ => none
  | (k', v') :: rest, k => if k' = k then some v' else lookupKV rest k

/-- Dictionary update on an association list keyed by Int: replaces an
existing binding or appends a fresh one. -/
def insertKV {α : Type} : List (Int × α) → Int → α → List (Int × α)
  | [], k, v => [(k, v)]
  | (k', v') :: rest, k, v =>
    if k' = k then (k, v) :: rest else (k', v') :: insertKV rest k v

/-- One step of the bit-order reversal loop of parseFontCharBDF
(charData <<= 1; if sourceData & 1: charData |= 1; sourceData >>= 1),
iterated n times with accumulator acc over source word s. -/
def revBitsAux : Nat → Nat → Nat → Nat
  | 0, acc, _ => acc
  | n + 1, acc, s => revBitsAux n (2 * acc + s % 2) (s / 2)

/-- The 32-bit bit-order reversal performed during row packing: 32
iterations of the shift-and-or loop starting from a zero accumulator. -/
def bitRev32 (x : Nat) : Nat := revBitsAux 32 0 x

/-- Reversal of the low n bits of s, a recursion used to reason about
revBitsAux. -/
def revLow : Nat → Nat → Nat
  | 0, _ => 0
  | n + 1, s => s % 2 * 2 ^ n + revLow n (s / 2)

/-- One line of a BDF file, embedded at the token level.  The Python
code dispatches on string prefixes (FONTBOUNDINGBOX, STARTCHAR, ENDCHAR,
ENDFONT, BITMAP, ENCODING, BBX, DWIDTH) and otherwise, inside a glyph
bitmap, parses the line as a hexadecimal integer; these classes of line
are mutually exclusive as strings.  Lines of any other shape are
`other`. -/
inductive BdfLine where
  | fontBoundingBox (bounds : List Int)
  | startChar
  | endChar
  | endFont
  | bitmap
  | encoding (cp : Int)
  | bbx (bounds : List Int)
  | dwidth (steps : List Int)
  | hexRow (v : Nat)
  | other
deriving DecidableEq, Repr

/-- The in-memory font definition dictionary built by parseFontBDF.
The fontName and charSetName string fields take no part in the encoding
semantics and are omitted. -/
structure FontDef where
  fontWidth : Int
  fontHeight : Int
  fontBaseline : Int
  fontMonospaced : Bool
  charSet : List (Int × List Nat)
  charWidths : List (Int × Int)
deriving DecidableEq, Repr

/-- The local state accumulated by the header-scanning loop of
parseFontCharBDF before the BITMAP marker is reached. -/
structure CharHeader where
  codePoint : Int
  padUpper : Int
  padLower : Int
  padLeft : Int
  padRight : Int
  charWidth : Int
  bounds : Option (List Int)
deriving DecidableEq, Repr

/-- Outcome of the header scan of parseFontCharBDF: either the glyph was
skipped by the negative-horizontal-offset early return (carrying the
possibly-updated monospaced flag), or the BITMAP marker was reached with
the accumulated header state and the remaining lines. -/
inductive ScanOut where
  | skipped (mono : Bool)
  | ready (st : CharHeader) (mono : Bool) (rest : List BdfLine)
deriving DecidableEq, Repr

/-- The header-scanning loop of parseFontCharBDF (the while loop before
the bitmap rows): reads ENCODING, BBX and DWIDTH declarations until the
BITMAP marker.  A BBX whose third field is negative returns early
without touching the glyph mapping; a BBX or DWIDTH with too few fields
is an IndexError (none); exhausting the lines is a StopIteration
(none). -/
def scanCharHeader (fw fh fb : Int) (st : CharHeader) (mono : Bool) :
    List BdfLine → Option ScanOut
  | [] => none
  | line :: rest =>
    match line with
    | .bitmap => some (.ready st mono rest)
    | .encoding cp => scanCharHeader fw fh fb { st with codePoint := cp } mono rest
    | .bbx bs =>
      match bs[2]? with
      | none => none
      | some b2 =>
        if b2 < 0 then some (.skipped mono)
        else
          match bs[0]?, bs[3]?, bs[1]? with
          | some b0, some b3, some b1 =>
            scanCharHeader fw fh fb
              { st with padLeft := b2, padRight := fw - b2 - b0,
                        padLower := fb + b3, padUpper := fh - (fb + b3) - b1,
                        bounds := some bs } mono rest
          | _, _, _ => none
    | .dwidth ss =>
      match ss[0]? with
      | none => none
      | some w =>
        scanCharHeader fw fh fb { st with charWidth := w }
          (if w ≠ fw then false else mono) rest
    | _ => scanCharHeader fw fh fb st mono rest

/-- The all-zero padding row appended for rows inside the top or bottom
padding: one byte, plus one more for each of the fontWidth > 8, > 16,
> 24 thresholds. -/
def zeroRow (fw : Int) : List Nat :=
  [0] ++ (if 8 < fw then [0] else []) ++ (if 16 < fw then [0] else [])
    ++ (if 24 < fw then [0] else [])

/-- The bytes appended for one converted bitmap row: the low byte of the
bit-reversed word, plus the higher bytes for each fontWidth threshold. -/
def rowBytes (fw : Int) (charData : Nat) : List Nat :=
  [charData % 256] ++ (if 8 < fw then [charData / 2 ^ 8 % 256] else [])
    ++ (if 16 < fw then [charData / 2 ^ 16 % 256] else [])
    ++ (if 24 < fw then [charData / 2 ^ 24 % 256] else [])

/-- Number of bytes the row loop appends per row for a given font
width. -/
def rowLen (fw : Int) : Nat :=
  1 + (if 8 < fw then 1 else 0) + (if 16 < fw then 1 else 0)
    + (if 24 < fw then 1 else 0)

/-- The row-conversion loop of parseFontCharBDF, processing rows i,
i+1, ... while n rows remain.  Padding rows emit zeroRow; other rows
consume the next line, which must parse as a hexadecimal integer, left
shift it according to the glyph pixel width bounds[0], right shift by
padLeft, reverse the bit order of the 32-bit word and split it into
bytes.  A missing line, a non-hexadecimal line, an unbound bounds
variable (no BBX was seen) or a negative shift count aborts (none). -/
def buildRows (fw fh padUpper padLower padLeft : Int) (bounds : Option (List Int)) :
    Nat → Nat → List BdfLine → Option (List (List Nat))
  | _, 0, _ => some []
  | i, n + 1, lines =>
    if (i : Int) < padUpper ∨ (i : Int) ≥ fh - padLower then
      (buildRows fw fh padUpper padLower padLeft bounds (i + 1) n lines).map
        (zeroRow fw :: ·)
    else
      match lines with
      | .hexRow v :: rest =>
        match bounds with
        | none => none
        | some bs =>
          match bs[0]? with
          | none => none
          | some b0 =>
            if padLeft < 0 then none
            else
              let s1 : Nat :=
                if b0 ≤ 8 then v <<< 24
                else if b0 ≤ 16 then v <<< 16
                else if b0 ≤ 24 then v <<< 8
                else v
              let cd := bitRev32 (s1 >>> padLeft.toNat)
              (buildRows fw fh padUpper padLower padLeft bounds (i + 1) n rest).map
                (rowBytes fw cd :: ·)
      | _ => none

/-- The per-glyph BDF parser parseFontCharBDF.  Scans the header lines,
then (unless the glyph was skipped for a negative horizontal offset)
converts the fontHeight bitmap rows and stores the packed bytes and the
advance width under the glyph codepoint.  The stores happen inside the
row loop in the source, so a font of non-positive height stores
nothing. -/
def parseFontCharBDF (fd : FontDef) (charLines : List BdfLine) : Option FontDef :=
  let st0 : CharHeader :=
    { codePoint := -1, padUpper := 0, padLower := 0, padLeft := 0,
      padRight := 0, charWidth := fd.fontWidth, bounds := none }
  match scanCharHeader fd.fontWidth fd.fontHeight fd.fontBaseline st0
      fd.fontMonospaced charLines with
  | none => none
  | some (.skipped mono) => some { fd with fontMonospaced := mono }
  | some (.ready st mono rest) =>
    match buildRows fd.fontWidth fd.fontHeight st.padUpper st.padLower st.padLeft
        st.bounds 0 fd.fontHeight.toNat rest with
    | none => none
    | some rows =>
      if fd.fontHeight.toNat = 0 then some { fd with fontMonospaced := mono }
      else
        some { fd with fontMonospaced := mono,
                       charSet := insertKV fd.charSet st.codePoint rows.flatten,
                       charWidths := insertKV fd.charWidths st.codePoint st.charWidth }

/-- The header loop of parseFontBDF: scans for the first FONTBOUNDINGBOX
line and initialises the font definition from it, with the monospaced
flag true and empty glyph maps.  Exhausting the file first is a
StopIteration (none); a bounding box with fewer than four fields is an
IndexError (none). -/
def parseFontHeader : List BdfLine → Option (FontDef × List BdfLine)
  | [] => none
  | .fontBoundingBox bs :: rest =>
    match bs[0]?, bs[1]?, bs[3]? with
    | some b0, some b1, some b3 =>
      some ({ fontWidth := b0, fontHeight := b1, fontBaseline := -b3,
              fontMonospaced := true, charSet := [], charWidths := [] }, rest)
    | _, _, _ => none
  | _ :: rest => parseFontHeader rest

/-- The character loop of parseFontBDF.  With mode none it scans at font
level: ENDFONT returns the accumulated definition, STARTCHAR opens a
glyph block.  With mode some acc it is collecting the lines of a glyph
block up to and including the ENDCHAR line, after which the block is
handed to parseFontCharBDF.  Exhausting the lines in either mode is a
StopIteration (none). -/
def parseFontChars (fd : FontDef) (mode : Option (List BdfLine)) :
    List BdfLine → Option FontDef
  | [] => none
  | line :: rest =>
    match mode with
    | none =>
      match line with
      | .endFont => some fd
      | .startChar => parseFontChars fd (some [BdfLine.startChar]) rest
      | _ => parseFontChars fd none rest
    | some acc =>
      match line with
      | .endChar =>
        match parseFontCharBDF fd (acc ++ [BdfLine.endChar]) with
        | none => none
        | some fd' => parseFontChars fd' none rest
      | _ => parseFontChars fd (some (acc ++ [line])) rest

/-- The font-level BDF parser parseFontBDF: header scan followed by the
character loop. -/
def parseFontBDF (fileLines : List BdfLine) : Option FontDef :=
  match parseFontHeader fileLines with
  | none => none
  | some (fd, rest) => parseFontChars fd none rest

/-- Character-data resolution of formatFontData: a codepoint present in
the glyph mapping yields its own packed bytes, an absent codepoint falls
back to the space glyph 0x20; a failed space lookup is a KeyError
(none). -/
def resolveCharData (fd : FontDef) (cp : Int) : Option (List Nat) :=
  match lookupKV fd.charSet cp with
  | some d => some d
  | none => lookupKV fd.charSet 32

/-- The data-copying loops of formatFontData for one codepoint: for each
of fontHeight rows, the first ((charWidth - 1) // 8) + 1 bytes of the
row are read from the packed data at the ((fontWidth - 1) // 8) + 1 byte
stride.  An out-of-range read is an IndexError (none). -/
def emitCharBytes (fw fh cw : Int) (charData : List Nat) : Option (List Nat) :=
  ((List.range fh.toNat).mapM (fun i : Nat =>
    (List.range (byteClassPy cw + 1).toNat).mapM (fun j : Nat =>
      pyGet charData ((i : Int) * (byteClassPy fw + 1) + (j : Int))))).map List.flatten

/-- The per-codepoint work of the formatFontData loop: the advance width
(the stored width, defaulting to fontWidth for unmapped codepoints)
paired with the trimmed data bytes. -/
def encodeStep (fd : FontDef) (cp : Int) : Option (Int × List Nat) :=
  let charWidth := (lookupKV fd.charWidths cp).getD fd.fontWidth
  match resolveCharData fd cp with
  | none => none
  | some d =>
    (emitCharBytes fd.fontWidth fd.fontHeight charWidth d).map (fun bs => (charWidth, bs))

/-- Accumulator of the formatFontData loop: the three output blocks, the
running byte offset charIndex, and the omitCharIndex flag. -/
structure EncState where
  data : List Nat
  widths : List Int
  index : List Nat
  charIndex : Nat
  omitIdx : Bool
deriving DecidableEq, Repr

/-- The main loop of formatFontData over the requested codepoint list:
appends the index entry (the running charIndex), the width entry and the
trimmed data bytes for each codepoint, and clears the omitCharIndex flag
whenever a codepoint's byte-width class differs from the cell's. -/
def encodeLoop (fd : FontDef) (st : EncState) : List Int → Option EncState
  | [] => some st
  | cp :: rest =>
    match encodeStep fd cp with
    | none => none
    | some (w, bs) =>
      encodeLoop fd
        { data := st.data ++ bs, widths := st.widths ++ [w],
          index := st.index ++ [st.charIndex], charIndex := st.charIndex + bs.length,
          omitIdx := st.omitIdx && decide (byteClassPy w = byteClassPy fd.fontWidth) } rest

/-- The encoder output: the three computed blocks and which of the width
table and character index the chosen source template actually emits. -/
structure EncodedFont where
  charData : List Nat
  charWidths : List Int
  charIndex : List Nat
  emitWidths : Bool
  emitIndex : Bool
deriving DecidableEq, Repr

/-- The layout selector and encoder formatFontData: runs the encoding
loop, then chooses the monospaced template (no width table, no index),
the plain proportional template (width table, no index) when
omitCharIndex survived, and the indexed proportional template
otherwise. -/
def formatFontData (fd : FontDef) (codePointList : List Int) : Option EncodedFont :=
  match encodeLoop fd ⟨[], [], [], 0, true⟩ codePointList with
  | none => none
  | some st =>
    if fd.fontMonospaced then some ⟨st.data, st.widths, st.index, false, false⟩
    else if st.omitIdx then some ⟨st.data, st.widths, st.index, true, false⟩
    else some ⟨st.data, st.widths, st.index, true, true⟩

/-- The standard ASCII entry point formatStandardAsciiCode: requests
codepoints 0x20 through 0x7E inclusive. -/
def formatStandardAsciiCode (fd : FontDef) : Option EncodedFont :=
  formatFontData fd ((List.range 95).map (fun i => (32 + i : Int)))

/-- Header lines that the glyph header scan passes over without effect
on the glyph mapping and without aborting: anything but BITMAP and BBX,
with DWIDTH lines required to carry at least one field. -/
def plainHeaderLine : BdfLine → Bool
  | .bitmap => false
  | .bbx _ => false
  | .dwidth ss => !ss.isEmpty
  | _ => true

/-- Whether the portion of a glyph block that the header scan actually
processes (the lines before the first BITMAP marker, cut short by a
negative-offset BBX early return) contains a DWIDTH declaration whose
advance width differs from the font width. -/
def dwidthDiffersB (fw : Int) : List BdfLine → Bool
  | [] => false
  | .bitmap :: _ => false
  | .bbx bs :: rest =>
    match bs[2]? with
    | none => false
    | some b2 => if b2 < 0 then false else dwidthDiffersB fw rest
  | .dwidth ss :: rest =>
    match ss[0]? with
    | none => false
    | some w => decide (w ≠ fw) || dwidthDiffersB fw rest
  | _ :: rest => dwidthDiffersB fw rest

/-- The monospaced flag carried by either header-scan outcome. -/
def ScanOut.monoOf : ScanOut → Bool
  | .skipped m => m
  | .ready _ m _ => m

/-- Concrete BDF file used by the specification scenario: cell 8 x 8,
baseline 1, one glyph at codepoint 0x41 with bounding box (8, 6, 0, -1),
advance width 8 and six hexadecimal rows 3C 42 42 7E 42 42. -/
def c3lines : List BdfLine :=
  [.fontBoundingBox [8, 8, 0, -1], .other, .startChar, .encoding 65, .other,
   .dwidth [8, 0], .bbx [8, 6, 0, -1], .bitmap,
   .hexRow 0x3C, .hexRow 0x42, .hexRow 0x42, .hexRow 0x7E, .hexRow 0x42, .hexRow 0x42,
   .endChar, .endFont]

/-- The font definition the scenario file actually parses to. -/
def c3fdExpected : FontDef :=
  { fontWidth := 8, fontHeight := 8, fontBaseline := 1, fontMonospaced := true,
    charSet := [(65, [0x00, 0x00, 0x3C, 0x42, 0x42, 0x7E, 0x42, 0x42])],
    charWidths := [(65, 8)] }

/-- Concrete proportional font whose space glyph has advance width 4,
narrower than the 8 pixel cell; its glyph mapping holds only the space
glyph. -/
def c1fd : FontDef :=
  { fontWidth := 8, fontHeight := 1, fontBaseline := 0, fontMonospaced := false,
    charSet := [(32, [0x00])], charWidths := [(32, 4)] }

/-- The encoder output for c1fd on the single codepoint 0x41. -/
def c1out : EncodedFont :=
  { charData := [0], charWidths := [8], charIndex := [0],
    emitWidths := true, emitIndex := false }

/-- The encoder output for c1fd on the three-codepoint range
[0x41, 0x20, 0x42]: the two unmapped codepoints take the space glyph's
bytes and the cell width 8, the space itself its own width 4. -/
def c1outB : EncodedFont :=
  { charData := [0, 0, 0], charWidths := [8, 4, 8], charIndex := [0, 1, 2],
    emitWidths := true, emitIndex := false }

/-- Concrete BDF file whose cell is 40 pixels wide (needing five bytes
of row storage) holding one 8 pixel wide space glyph. -/
def c8lines : List BdfLine :=
  [.fontBoundingBox [40, 1, 0, 0], .startChar, .encoding 32, .dwidth [8],
   .bbx [8, 1, 0, 0], .bitmap, .hexRow 0x80, .endChar, .endFont]

/-- The font definition the 40 pixel wide file parses to: each stored
row holds only four bytes. -/
def c8fdExpected : FontDef :=
  { fontWidth := 40, fontHeight := 1, fontBaseline := 0, fontMonospaced := false,
    charSet := [(32, [1, 0, 0, 0])], charWidths := [(32, 8)] }

/-- The encoder output for the 40 pixel wide font at codepoint 0x20. -/
def c8outExpected : EncodedFont :=
  { charData := [1], charWidths := [8], charIndex := [0],
    emitWidths := true, emitIndex := true }

/-- Ingredients of the width-truncation witness: a bare 40 pixel wide
font definition and a well-formed glyph block for codepoint 0x20. -/
def c8fdStart : FontDef :=
  { fontWidth := 40, fontHeight := 1, fontBaseline := 0, fontMonospaced := true,
    charSet := [], charWidths := [] }

/-- Glyph block of the width-truncation witness. -/
def c8block : List BdfLine :=
  [.encoding 32, .dwidth [8], .bbx [8, 1, 0, 0], .bitmap, .hexRow 0x80, .endChar]

/-- Concrete font whose glyph mapping lacks the space codepoint 0x20. -/
def c10fd : FontDef :=
  { fontWidth := 8, fontHeight := 1, fontBaseline := 0, fontMonospaced := true,
    charSet := [(65, [0x01])], charWidths := [(65, 8)] }

/-- Concrete zero-height font used to witness the monospaced-flag
contract. -/
def c4fd : FontDef :=
  { fontWidth := 8, fontHeight := 0, fontBaseline := 0, fontMonospaced := true,
    charSet := [], charWidths := [] }

/-- Glyph block declaring advance width 6 against a cell width of 8. -/
def c4block : List BdfLine :=
  [.encoding 65, .dwidth [6], .bbx [6, 0, 0, 0], .bitmap]

/-- Result of parsing the advance-width-6 block into c4fd. -/
def c4out : FontDef :=
  { fontWidth := 8, fontHeight := 0, fontBaseline := 0, fontMonospaced := false,
    charSet := [], charWidths := [] }

/-- Concrete monospaced 8 x 1 font start state for the packed-row-shape
witness. -/
def c5fd : FontDef :=
  { fontWidth := 8, fontHeight := 1, fontBaseline := 0, fontMonospaced := true,
    charSet := [], charWidths := [] }

/-- Glyph block of the packed-row-shape witness. -/
def c5block : List BdfLine :=
  [.encoding 65, .dwidth [8], .bbx [8, 1, 0, 0], .bitmap, .hexRow 0x80, .endChar]

/-- Result of parsing the packed-row-shape witness block. -/
def c5out : FontDef :=
  { fontWidth := 8, fontHeight := 1, fontBaseline := 0, fontMonospaced := true,
    charSet := [(65, [1])], charWidths := [(65, 8)] }

/-- Python floor division (w - 1) // 8 agrees with Euclidean division for
the positive divisor 8. -/
theorem byteClassPy_eq (w : Int) : byteClassPy w = (w - 1) / 8 := by
  unfold byteClassPy
  exact Int.fdiv_eq_ediv _ (by norm_num)

/-- The specification byte-width class is one more than the Python
index expression: ceil(w/8) = (w - 1) // 8 + 1. -/
theorem ceilDiv8_eq (w : Int) : ceilDiv8 w = byteClassPy w + 1 := by
  rw [byteClassPy_eq]
  unfold ceilDiv8
  rw [Int.fdiv_eq_ediv _ (by norm_num)]
  omega

/-- Two widths share a byte-width class in the specification sense
exactly when the Python index expressions coincide. -/
theorem ceilDiv8_eq_iff (v w : Int) :
    ceilDiv8 v = ceilDiv8 w ↔ byteClassPy v = byteClassPy w := by
  rw [ceilDiv8_eq, ceilDiv8_eq]
  omega

/-- For cell widths between 1 and 32 pixels the per-row byte count of
the row loop equals the byte-width class of the cell. -/
theorem rowLen_eq_ceil {fw : Int} (h1 : 1 ≤ fw) (h2 : fw ≤ 32) :
    rowLen fw = (ceilDiv8 fw).toNat := by
  unfold rowLen ceilDiv8
  rw [Int.fdiv_eq_ediv _ (by norm_num)]
  split_ifs <;> omega

/-- For cell widths above 32 pixels the row loop still appends only four
bytes, strictly fewer than the byte-width class of the cell. -/
theorem rowLen_eq_four {fw : Int} (h : 32 < fw) :
    rowLen fw = 4 ∧ (4 : Int) < ceilDiv8 fw := by
  unfold rowLen ceilDiv8
  rw [Int.fdiv_eq_ediv _ (by norm_num)]
  split_ifs <;> omega

/-- A zero padding row has the per-row byte count. -/
theorem zeroRow_length (fw : Int) : (zeroRow fw).length = rowLen fw := by
  unfold zeroRow rowLen
  split_ifs <;> simp

/-- A converted bitmap row has the per-row byte count. -/
theorem rowBytes_length (fw : Int) (cd : Nat) :
    (rowBytes fw cd).length = rowLen fw := by
  unfold rowBytes rowLen
  split_ifs <;> simp

/-- Lookup after inserting the same key returns the inserted value. -/
theorem lookupKV_insert_self {α : Type} (m : List (Int × α)) (k : Int) (v : α) :
    lookupKV (insertKV m k v) k = some v := by
  induction m with
  | nil => simp [insertKV, lookupKV]
  | cons kv rest ih =>
    obtain ⟨k', v'⟩ := kv
    by_cases h : k' = k
    · simp [insertKV, h, lookupKV]
    · simp [insertKV, h, lookupKV, ih]

/-- Lookup at a different key is unchanged by an insert. -/
theorem lookupKV_insert_ne {α : Type} (m : List (Int × α)) (k k₂ : Int) (v : α)
    (h : k₂ ≠ k) : lookupKV (insertKV m k v) k₂ = lookupKV m k₂ := by
  have h' : ¬k = k₂ := fun hc => h hc.symm
  induction m with
  | nil => simp [insertKV, lookupKV, h']
  | cons kv rest ih =>
    obtain ⟨k', v'⟩ := kv
    by_cases hk : k' = k
    · subst hk
      simp [insertKV, lookupKV, h']
    · simp only [insertKV, if_neg hk, lookupKV]
      by_cases hk2 : k' = k₂
      · simp [hk2]
      · simp [hk2, ih]

/-- Unrolling the bit-reversal accumulator: n steps contribute the
accumulator shifted up by n bits plus the reversal of the low n source
bits. -/
theorem revBitsAux_eq (n : Nat) : ∀ acc s, revBitsAux n acc s = acc * 2 ^ n + revLow n s := by
  induction n with
  | zero => intro acc s; simp [revBitsAux, revLow]
  | succ n ih =>
    intro acc s
    rw [revBitsAux, revLow, ih, pow_succ]
    ring

/-- The reversal of the low n bits fits in n bits. -/
theorem revLow_lt (n : Nat) : ∀ s, revLow n s < 2 ^ n := by
  induction n with
  | zero => intro s; simp [revLow]
  | succ n ih =>
    intro s
    rw [revLow, pow_succ]
    have h1 : s % 2 ≤ 1 := Nat.le_of_lt_succ (Nat.mod_lt s (by norm_num))
    have h2 := ih (s / 2)
    have h3 : s % 2 * 2 ^ n ≤ 2 ^ n := by
      calc s % 2 * 2 ^ n ≤ 1 * 2 ^ n := Nat.mul_le_mul_right _ h1
        _ = 2 ^ n := one_mul _
    omega

/-- Bit i of the low-n-bit reversal of s is bit n - 1 - i of s. -/
theorem testBit_revLow (n : Nat) :
    ∀ s i, (revLow n s).testBit i = if i < n then s.testBit (n - 1 - i) else false := by
  induction n with
  | zero => intro s i; simp [revLow]
  | succ n ih =>
    intro s i
    rw [revLow, Nat.mul_comm (s % 2) (2 ^ n),
      Nat.testBit_mul_pow_two_add (s % 2) (revLow_lt n (s / 2)) i]
    by_cases h : i < n
    · rw [if_pos h, ih, if_pos h, if_pos (by omega)]
      rw [Nat.testBit_div_two]
      congr 1
      omega
    · rw [if_neg h]
      by_cases h2 : i = n
      · subst h2
        have he : s % 2 % 2 = s % 2 := Nat.mod_mod_of_dvd s dvd_rfl
        simp [Nat.lt_succ_self, Nat.sub_self, Nat.testBit_zero, he]
      · rw [if_neg (by omega)]
        have h3 : 1 ≤ i - n := by omega
        apply Nat.testBit_lt_two_pow
        calc s % 2 < 2 := Nat.mod_lt s (by norm_num)
          _ = 2 ^ 1 := (pow_one 2).symm
          _ ≤ 2 ^ (i - n) := Nat.pow_le_pow_right (by norm_num) h3

/-- Bit i of the 32-bit reversal of x is bit 31 - i of x, and bits at or
above 32 are clear. -/
theorem testBit_bitRev32 (x i : Nat) :
    (bitRev32 x).testBit i = if i < 32 then x.testBit (31 - i) else false := by
  unfold bitRev32
  rw [revBitsAux_eq]
  simpa using testBit_revLow 32 x i

/-- The 32-bit reversal always fits in 32 bits. -/
theorem bitRev32_lt (x : Nat) : bitRev32 x < 2 ^ 32 := by
  unfold bitRev32
  rw [revBitsAux_eq]
  simpa using revLow_lt 32 x

/-- The monospaced flag a successful header scan returns is the incoming
flag cleared exactly when a processed DWIDTH declaration differs from
the font width. -/
theorem scanCharHeader_mono (fw fh fb : Int) :
    ∀ (lines : List BdfLine) (st : CharHeader) (mono : Bool) (out : ScanOut),
      scanCharHeader fw fh fb st mono lines = some out →
      out.monoOf = (mono && !dwidthDiffersB fw lines) := by
  intro lines
  induction lines with
  | nil => intro st mono out h; simp [scanCharHeader] at h
  | cons line rest ih =>
    intro st mono out h
    cases line with
    | bitmap =>
      simp only [scanCharHeader, Option.some_inj] at h
      subst h
      simp [ScanOut.monoOf, dwidthDiffersB]
    | encoding cp =>
      simp only [scanCharHeader] at h
      rw [ih _ _ _ h]
      simp [dwidthDiffersB]
    | bbx bs =>
      simp only [scanCharHeader] at h
      cases hb : bs[2]? with
      | none => rw [hb] at h; simp only [] at h; cases h
      | some b2 =>
        rw [hb] at h
        simp only [] at h
        by_cases hneg : b2 < 0
        · rw [if_pos hneg] at h
          simp only [Option.some_inj] at h
          subst h
          simp [ScanOut.monoOf, dwidthDiffersB, hb, hneg]
        · rw [if_neg hneg] at h
          cases h0 : bs[0]? with
          | none => rw [h0] at h; simp only [] at h; cases h
          | some b0 =>
            cases h3 : bs[3]? with
            | none => rw [h0, h3] at h; simp only [] at h; cases h
            | some b3 =>
              cases h1 : bs[1]? with
              | none => rw [h0, h3, h1] at h; simp only [] at h; cases h
              | some b1 =>
                rw [h0, h3, h1] at h
                simp only [] at h
                rw [ih _ _ _ h]
                simp [dwidthDiffersB, hb, hneg]
    | dwidth ss =>
      simp only [scanCharHeader] at h
      cases hs : ss[0]? with
      | none => rw [hs] at h; simp only [] at h; cases h
      | some w =>
        rw [hs] at h
        simp only [] at h
        rw [ih _ _ _ h]
        simp only [dwidthDiffersB, hs]
        by_cases hw : w ≠ fw
        · simp [hw]
        · simp [hw]
    | fontBoundingBox bs =>
      simp only [scanCharHeader] at h
      rw [ih _ _ _ h]
      simp [dwidthDiffersB]
    | startChar =>
      simp only [scanCharHeader] at h
      rw [ih _ _ _ h]
      simp [dwidthDiffersB]
    | endChar =>
      simp only [scanCharHeader] at h
      rw [ih _ _ _ h]
      simp [dwidthDiffersB]
    | endFont =>
      simp only [scanCharHeader] at h
      rw [ih _ _ _ h]
      simp [dwidthDiffersB]
    | hexRow v =>
      simp only [scanCharHeader] at h
      rw [ih _ _ _ h]
      simp [dwidthDiffersB]
    | other =>
      simp only [scanCharHeader] at h
      rw [ih _ _ _ h]
      simp [dwidthDiffersB]

/-- After any run of plain header lines, a BBX declaration with a
negative third field makes the header scan return the skipped outcome. -/
theorem scanCharHeader_skips (fw fh fb : Int) :
    ∀ (pre : List BdfLine) (st : CharHeader) (mono : Bool) (bs : List Int) (o : Int)
      (rest : List BdfLine),
      pre.all plainHeaderLine = true → bs[2]? = some o → o < 0 →
      ∃ m, scanCharHeader fw fh fb st mono (pre ++ .bbx bs :: rest) = some (.skipped m) := by
  intro pre
  induction pre with
  | nil =>
    intro st mono bs o rest _ hb ho
    refine ⟨mono, ?_⟩
    simp only [List.nil_append, scanCharHeader, hb]
    simp [ho]
  | cons line pre ih =>
    intro st mono bs o rest hall hb ho
    simp only [List.all_cons, Bool.and_eq_true] at hall
    obtain ⟨hline, hall⟩ := hall
    cases line with
    | bitmap => simp [plainHeaderLine] at hline
    | bbx bs2 => simp [plainHeaderLine] at hline
    | dwidth ss =>
      simp only [plainHeaderLine, Bool.not_eq_true'] at hline
      cases hss : ss[0]? with
      | none =>
        exfalso
        rw [List.getElem?_eq_none_iff] at hss
        rw [List.isEmpty_eq_false] at hline
        have : 0 < ss.length := List.length_pos.mpr hline
        omega
      | some w =>
        simp only [List.cons_append, scanCharHeader, hss]
        exact ih _ _ _ _ _ hall hb ho
    | encoding cp =>
      simp only [List.cons_append, scanCharHeader]
      exact ih _ _ _ _ _ hall hb ho
    | fontBoundingBox bs2 =>
      simp only [List.cons_append, scanCharHeader]
      exact ih _ _ _ _ _ hall hb ho
    | startChar =>
      simp only [List.cons_append, scanCharHeader]
      exact ih _ _ _ _ _ hall hb ho
    | endChar =>
      simp only [List.cons_append, scanCharHeader]
      exact ih _ _ _ _ _ hall hb ho
    | endFont =>
      simp only [List.cons_append, scanCharHeader]
      exact ih _ _ _ _ _ hall hb ho
    | hexRow v =>
      simp only [List.cons_append, scanCharHeader]
      exact ih _ _ _ _ _ hall hb ho
    | other =>
      simp only [List.cons_append, scanCharHeader]
      exact ih _ _ _ _ _ hall hb ho

/-- A run of plain header lines cannot hide an already-found differing
DWIDTH: the differing-DWIDTH test is preserved under such a prefix. -/
theorem dwidthDiffersB_append_plain (fw : Int) :
    ∀ (pre tail : List BdfLine), pre.all plainHeaderLine = true →
      dwidthDiffersB fw tail = true → dwidthDiffersB fw (pre ++ tail) = true := by
  intro pre
  induction pre with
  | nil => intro tail _ ht; simpa using ht
  | cons line pre ih =>
    intro tail hall ht
    simp only [List.all_cons, Bool.and_eq_true] at hall
    obtain ⟨hline, hall⟩ := hall
    cases line with
    | bitmap => simp [plainHeaderLine] at hline
    | bbx bs2 => simp [plainHeaderLine] at hline
    | dwidth ss =>
      simp only [plainHeaderLine, Bool.not_eq_true'] at hline
      cases hss : ss[0]? with
      | none =>
        exfalso
        rw [List.getElem?_eq_none_iff] at hss
        rw [List.isEmpty_eq_false] at hline
        have : 0 < ss.length := List.length_pos.mpr hline
        omega
      | some w =>
        simp only [List.cons_append, dwidthDiffersB, hss]
        have := ih _ hall ht
        simp only [List.append_eq] at this ⊢
        rw [this]
        simp
    | encoding cp =>
      simp only [List.cons_append, dwidthDiffersB]
      exact ih _ hall ht
    | fontBoundingBox bs2 =>
      simp only [List.cons_append, dwidthDiffersB]
      exact ih _ hall ht
    | startChar =>
      simp only [List.cons_append, dwidthDiffersB]
      exact ih _ hall ht
    | endChar =>
      simp only [List.cons_append, dwidthDiffersB]
      exact ih _ hall ht
    | endFont =>
      simp only [List.cons_append, dwidthDiffersB]
      exact ih _ hall ht
    | hexRow v =>
      simp only [List.cons_append, dwidthDiffersB]
      exact ih _ hall ht
    | other =>
      simp only [List.cons_append, dwidthDiffersB]
      exact ih _ hall ht

/-- Every successful run of the row loop yields one list per remaining
row, each of the per-row byte count. -/
theorem buildRows_structure (fw fh pu pl plft : Int) (bd : Option (List Int)) :
    ∀ (n i : Nat) (lines : List BdfLine) (rows : List (List Nat)),
      buildRows fw fh pu pl plft bd i n lines = some rows →
      rows.length = n ∧ ∀ r ∈ rows, r.length = rowLen fw := by
  intro n
  induction n with
  | zero =>
    intro i lines rows h
    simp only [buildRows, Option.some_inj] at h
    subst h
    simp
  | succ n ih =>
    intro i lines rows h
    simp only [buildRows] at h
    by_cases hc : (i : Int) < pu ∨ (i : Int) ≥ fh - pl
    · rw [if_pos hc] at h
      cases hr : buildRows fw fh pu pl plft bd (i + 1) n lines with
      | none => rw [hr] at h; cases h
      | some rows2 =>
        rw [hr] at h
        simp only [Option.map_some', Option.some_inj] at h
        subst h
        obtain ⟨hl, hall⟩ := ih _ _ _ hr
        refine ⟨by simp [hl], ?_⟩
        intro r hrm
        rcases List.mem_cons.mp hrm with hr0 | hr1
        · subst hr0; exact zeroRow_length fw
        · exact hall r hr1
    · rw [if_neg hc] at h
      cases lines with
      | nil => cases h
      | cons l rest =>
        cases l with
        | hexRow v =>
          simp only [] at h
          cases bd with
          | none => cases h
          | some bs =>
            simp only [] at h
            cases h0 : bs[0]? with
            | none => rw [h0] at h; cases h
            | some b0 =>
              rw [h0] at h
              simp only [] at h
              by_cases hneg : plft < 0
              · rw [if_pos hneg] at h; cases h
              · rw [if_neg hneg] at h
                cases hr : buildRows fw fh pu pl plft (some bs) (i + 1) n rest with
                | none => rw [hr] at h; cases h
                | some rows2 =>
                  rw [hr] at h
                  simp only [Option.map_some', Option.some_inj] at h
                  subst h
                  obtain ⟨hl, hall⟩ := ih _ _ _ hr
                  refine ⟨by simp [hl], ?_⟩
                  intro r hrm
                  rcases List.mem_cons.mp hrm with hr0 | hr1
                  · subst hr0; exact rowBytes_length fw _
                  · exact hall r hr1
        | fontBoundingBox bs2 => cases h
        | startChar => cases h
        | endChar => cases h
        | endFont => cases h
        | bitmap => cases h
        | encoding cp => cases h
        | bbx bs2 => cases h
        | dwidth ss => cases h
        | other => cases h

/-- The monospaced flag after a successful glyph parse is the incoming
flag cleared exactly when the processed portion of the block declares a
differing advance width. -/
theorem parseFontCharBDF_mono (fd : FontDef) (block : List BdfLine) (fd' : FontDef)
    (h : parseFontCharBDF fd block = some fd') :
    fd'.fontMonospaced = (fd.fontMonospaced && !dwidthDiffersB fd.fontWidth block) := by
  simp only [parseFontCharBDF] at h
  cases hs : scanCharHeader fd.fontWidth fd.fontHeight fd.fontBaseline
      { codePoint := -1, padUpper := 0, padLower := 0, padLeft := 0,
        padRight := 0, charWidth := fd.fontWidth, bounds := none }
      fd.fontMonospaced block with
  | none => rw [hs] at h; cases h
  | some out =>
    rw [hs] at h
    have hm := scanCharHeader_mono fd.fontWidth fd.fontHeight fd.fontBaseline
      block _ _ _ hs
    cases out with
    | skipped m =>
      simp only [Option.some_inj] at h
      subst h
      simpa [ScanOut.monoOf] using hm
    | ready st m rest =>
      simp only [] at h
      simp only [ScanOut.monoOf] at hm
      cases hb : buildRows fd.fontWidth fd.fontHeight st.padUpper st.padLower
          st.padLeft st.bounds 0 fd.fontHeight.toNat rest with
      | none => rw [hb] at h; cases h
      | some rows =>
        rw [hb] at h
        simp only [] at h
        by_cases hz : fd.fontHeight.toNat = 0
        · rw [if_pos hz] at h
          simp only [Option.some_inj] at h
          subst h
          simpa using hm
        · rw [if_neg hz] at h
          simp only [Option.some_inj] at h
          subst h
          simpa using hm

/-- Every byte list found in the glyph mapping after a successful glyph
parse was either present before, or is the flattening of one stored list
per cell row, each of the per-row byte count. -/
theorem parseFontCharBDF_stored (fd : FontDef) (block : List BdfLine) (fd' : FontDef)
    (cp : Int) (bytes : List Nat)
    (h : parseFontCharBDF fd block = some fd')
    (hl : lookupKV fd'.charSet cp = some bytes) :
    lookupKV fd.charSet cp = some bytes ∨
      ∃ rows : List (List Nat), bytes = rows.flatten ∧
        rows.length = fd.fontHeight.toNat ∧ ∀ r ∈ rows, r.length = rowLen fd.fontWidth := by
  simp only [parseFontCharBDF] at h
  cases hs : scanCharHeader fd.fontWidth fd.fontHeight fd.fontBaseline
      { codePoint := -1, padUpper := 0, padLower := 0, padLeft := 0,
        padRight := 0, charWidth := fd.fontWidth, bounds := none }
      fd.fontMonospaced block with
  | none => rw [hs] at h; cases h
  | some out =>
    rw [hs] at h
    cases out with
    | skipped m =>
      simp only [Option.some_inj] at h
      subst h
      exact Or.inl hl
    | ready st m rest =>
      simp only [] at h
      cases hb : buildRows fd.fontWidth fd.fontHeight st.padUpper st.padLower
          st.padLeft st.bounds 0 fd.fontHeight.toNat rest with
      | none => rw [hb] at h; cases h
      | some rows =>
        rw [hb] at h
        simp only [] at h
        by_cases hz : fd.fontHeight.toNat = 0
        · rw [if_pos hz] at h
          simp only [Option.some_inj] at h
          subst h
          exact Or.inl hl
        · rw [if_neg hz] at h
          simp only [Option.some_inj] at h
          subst h
          simp only [] at hl
          by_cases hcp : cp = st.codePoint
          · subst hcp
            rw [lookupKV_insert_self] at hl
            obtain ⟨hlen, hall⟩ := buildRows_structure fd.fontWidth fd.fontHeight
              st.padUpper st.padLower st.padLeft st.bounds _ _ _ _ hb
            refine Or.inr ⟨rows, ?_, hlen, hall⟩
            simpa using hl.symm
          · rw [lookupKV_insert_ne _ _ _ _ hcp] at hl
            exact Or.inl hl

/-- A glyph block whose processed header lines are plain until a BBX
with a negative horizontal offset parses to the input font definition
with at most the monospaced flag changed. -/
theorem parseFontCharBDF_skipped (fd : FontDef) (pre : List BdfLine) (bs : List Int)
    (o : Int) (rest : List BdfLine) (hall : pre.all plainHeaderLine = true)
    (hb : bs[2]? = some o) (ho : o < 0) :
    ∃ m, parseFontCharBDF fd (pre ++ .bbx bs :: rest) =
      some { fd with fontMonospaced := m } := by
  obtain ⟨m, hm⟩ := scanCharHeader_skips fd.fontWidth fd.fontHeight fd.fontBaseline
    pre { codePoint := -1, padUpper := 0, padLower := 0, padLeft := 0,
          padRight := 0, charWidth := fd.fontWidth, bounds := none }
    fd.fontMonospaced bs o rest hall hb ho
  refine ⟨m, ?_⟩
  simp only [parseFontCharBDF, hm]

/-- The character loop preserves a cleared monospaced flag: once false
it stays false for the rest of the parse. -/
theorem parseFontChars_monoFalse :
    ∀ (lines : List BdfLine) (fd : FontDef) (mode : Option (List BdfLine)) (fd' : FontDef),
      fd.fontMonospaced = false →
      parseFontChars fd mode lines = some fd' → fd'.fontMonospaced = false := by
  intro lines
  induction lines with
  | nil => intro fd mode fd' hm h; cases mode <;> simp [parseFontChars] at h
  | cons line rest ih =>
    intro fd mode fd' hm h
    cases mode with
    | none =>
      cases line with
      | endFont =>
        simp only [parseFontChars, Option.some_inj] at h
        subst h
        exact hm
      | startChar =>
        simp only [parseFontChars] at h
        exact ih _ _ _ hm h
      | fontBoundingBox bs => simp only [parseFontChars] at h; exact ih _ _ _ hm h
      | endChar => simp only [parseFontChars] at h; exact ih _ _ _ hm h
      | bitmap => simp only [parseFontChars] at h; exact ih _ _ _ hm h
      | encoding cp => simp only [parseFontChars] at h; exact ih _ _ _ hm h
      | bbx bs => simp only [parseFontChars] at h; exact ih _ _ _ hm h
      | dwidth ss => simp only [parseFontChars] at h; exact ih _ _ _ hm h
      | hexRow v => simp only [parseFontChars] at h; exact ih _ _ _ hm h
      | other => simp only [parseFontChars] at h; exact ih _ _ _ hm h
    | some acc =>
      cases line with
      | endChar =>
        simp only [parseFontChars] at h
        cases hp : parseFontCharBDF fd (acc ++ [BdfLine.endChar]) with
        | none => rw [hp] at h; cases h
        | some fd2 =>
          rw [hp] at h
          have h2 := parseFontCharBDF_mono _ _ _ hp
          rw [hm] at h2
          simp only [Bool.false_and] at h2
          exact ih _ _ _ h2 h
      | fontBoundingBox bs => simp only [parseFontChars] at h; exact ih _ _ _ hm h
      | startChar => simp only [parseFontChars] at h; exact ih _ _ _ hm h
      | endFont => simp only [parseFontChars] at h; exact ih _ _ _ hm h
      | bitmap => simp only [parseFontChars] at h; exact ih _ _ _ hm h
      | encoding cp => simp only [parseFontChars] at h; exact ih _ _ _ hm h
      | bbx bs => simp only [parseFontChars] at h; exact ih _ _ _ hm h
      | dwidth ss => simp only [parseFontChars] at h; exact ih _ _ _ hm h
      | hexRow v => simp only [parseFontChars] at h; exact ih _ _ _ hm h
      | other => simp only [parseFontChars] at h; exact ih _ _ _ hm h

/-- The header loop always initialises the monospaced flag to true. -/
theorem parseFontHeader_monoTrue :
    ∀ (lines : List BdfLine) (fd : FontDef) (rest : List BdfLine),
      parseFontHeader lines = some (fd, rest) → fd.fontMonospaced = true := by
  intro lines
  induction lines with
  | nil => intro fd rest h; simp [parseFontHeader] at h
  | cons line tail ih =>
    intro fd rest h
    cases line with
    | fontBoundingBox bs =>
      simp only [parseFontHeader] at h
      cases h0 : bs[0]? with
      | none => rw [h0] at h; simp only [] at h; cases h
      | some b0 =>
        cases h1 : bs[1]? with
        | none => rw [h0, h1] at h; simp only [] at h; cases h
        | some b1 =>
          cases h3 : bs[3]? with
          | none => rw [h0, h1, h3] at h; simp only [] at h; cases h
          | some b3 =>
            rw [h0, h1, h3] at h
            simp only [Option.some_inj, Prod.mk.injEq] at h
            obtain ⟨hfd, _⟩ := h
            subst hfd
            rfl
    | startChar => simp only [parseFontHeader] at h; exact ih _ _ h
    | endChar => simp only [parseFontHeader] at h; exact ih _ _ h
    | endFont => simp only [parseFontHeader] at h; exact ih _ _ h
    | bitmap => simp only [parseFontHeader] at h; exact ih _ _ h
    | encoding cp => simp only [parseFontHeader] at h; exact ih _ _ h
    | bbx bs => simp only [parseFontHeader] at h; exact ih _ _ h
    | dwidth ss => simp only [parseFontHeader] at h; exact ih _ _ h
    | hexRow v => simp only [parseFontHeader] at h; exact ih _ _ h
    | other => simp only [parseFontHeader] at h; exact ih _ _ h

/-- Python indexing at a non-negative index is plain list indexing. -/
theorem pyGet_nonneg (b : List Nat) (i : Int) (h : 0 ≤ i) :
    pyGet b i = b[i.toNat]? := by
  simp [pyGet, h]

/-- Reading c consecutive indices starting at a non-negative offset
within bounds yields the corresponding contiguous slice. -/
theorem mapM_pyGet_slice (b : List Nat) (off : Int) (hoff : 0 ≤ off) :
    ∀ c : Nat, off.toNat + c ≤ b.length →
      (List.range c).mapM (fun j : Nat => pyGet b (off + (j : Int))) =
        some ((b.drop off.toNat).take c) := by
  intro c
  induction c with
  | zero => intro h; rfl
  | succ c ih =>
    intro h
    rw [List.range_succ, List.mapM_append, ih (by omega)]
    have hin : off.toNat + c < b.length := by omega
    have hc : pyGet b (off + (c : Int)) = some b[off.toNat + c] := by
      rw [pyGet_nonneg b _ (by omega)]
      rw [show (off + (c : Int)).toNat = off.toNat + c by omega]
      exact List.getElem?_eq_getElem hin
    simp only [List.mapM_cons, List.mapM_nil, hc]
    simp only [Option.bind_eq_bind, Option.some_bind, Option.pure_def]
    rw [List.take_succ, List.getElem?_drop]
    simp [List.getElem?_eq_getElem hin]

/-- A mapM over Option whose entries all succeed is the map of the
witnessing values. -/
theorem mapM_eq_some_map {α β : Type} (f : α → Option β) (g : α → β) :
    ∀ l : List α, (∀ a ∈ l, f a = some (g a)) → l.mapM f = some (l.map g) := by
  intro l
  induction l with
  | nil => intro _; rfl
  | cons a rest ih =>
    intro hall
    rw [List.mapM_cons, hall a (List.mem_cons_self a rest),
      ih (fun x hx => hall x (List.mem_cons_of_mem a hx))]
    rfl

/-- Concatenating the take-s slices of a list of length h * s at stride
s recovers the list. -/
theorem flatten_slices (s : Nat) :
    ∀ (h : Nat) (b : List Nat), b.length = h * s →
      ((List.range h).map (fun i => (b.drop (i * s)).take s)).flatten = b := by
  intro h
  induction h with
  | zero =>
    intro b hb
    simp at hb
    simp [hb]
  | succ h ih =>
    intro b hb
    rw [List.range_succ_eq_map, List.map_cons, List.map_map]
    have hfun : ((fun i => (b.drop (i * s)).take s) ∘ Nat.succ) =
        fun i => ((b.drop s).drop (i * s)).take s := by
      funext i
      simp only [Function.comp_apply, List.drop_drop]
      congr 2
      rw [Nat.succ_mul]
      ring
    rw [hfun]
    have hlen : (b.drop s).length = h * s := by
      rw [List.length_drop, hb]
      ring_nf
      omega
    rw [List.flatten_cons, ih (b.drop s) hlen]
    simp [List.take_append_drop]

/-- When the current byte class does not exceed the cell stride and the
packed data holds exactly fontHeight full-stride rows, the data-copying
loops of formatFontData succeed and emit, for each row, exactly its
first bytes up to the current byte class. -/
theorem emitCharBytes_slices (fw fh cw : Int) (b : List Nat) (hfw : 1 ≤ fw)
    (hle : (byteClassPy cw + 1).toNat ≤ (byteClassPy fw + 1).toNat)
    (hlen : b.length = fh.toNat * (byteClassPy fw + 1).toNat) :
    emitCharBytes fw fh cw b =
      some (((List.range fh.toNat).map
        (fun i => (b.drop (i * (byteClassPy fw + 1).toNat)).take
          (byteClassPy cw + 1).toNat)).flatten) := by
  have hS0 : 0 ≤ byteClassPy fw := by
    rw [byteClassPy_eq]
    omega
  have hScast : ((byteClassPy fw + 1 : Int)) = (((byteClassPy fw + 1).toNat : Nat) : Int) := by
    omega
  unfold emitCharBytes
  rw [mapM_eq_some_map _ (fun i => (b.drop (i * (byteClassPy fw + 1).toNat)).take
      (byteClassPy cw + 1).toNat)]
  · rfl
  · intro i hi
    rw [List.mem_range] at hi
    have hfun : (fun j : Nat => pyGet b ((i : Int) * (byteClassPy fw + 1) + (j : Int))) =
        (fun j : Nat => pyGet b (((i * (byteClassPy fw + 1).toNat : Nat) : Int) + (j : Int))) := by
      funext j
      congr 1
      push_cast [show (((byteClassPy fw + 1).toNat : Nat) : Int) = byteClassPy fw + 1 from
        Int.toNat_of_nonneg (by omega)]
      ring
    rw [hfun]
    have hbound : ((i * (byteClassPy fw + 1).toNat : Nat) : Int).toNat
        + (byteClassPy cw + 1).toNat ≤ b.length := by
      rw [Int.toNat_natCast]
      calc i * (byteClassPy fw + 1).toNat + (byteClassPy cw + 1).toNat
          ≤ i * (byteClassPy fw + 1).toNat + (byteClassPy fw + 1).toNat := by omega
        _ = (i + 1) * (byteClassPy fw + 1).toNat := by ring
        _ ≤ fh.toNat * (byteClassPy fw + 1).toNat :=
            Nat.mul_le_mul_right _ (by omega)
        _ = b.length := hlen.symm
    rw [mapM_pyGet_slice b _ (by positivity) _ hbound]
    rw [Int.toNat_natCast]

/-- With the current width equal to the cell width, the data-copying
loops reproduce the stored packed bytes exactly. -/
theorem emitCharBytes_full (fw fh : Int) (b : List Nat) (hfw : 1 ≤ fw)
    (hlen : b.length = fh.toNat * (byteClassPy fw + 1).toNat) :
    emitCharBytes fw fh fw b = some b := by
  rw [emitCharBytes_slices fw fh fw b hfw le_rfl hlen]
  congr 1
  exact flatten_slices _ _ _ hlen

/-- The width a successful encoding step pairs with the data is the
stored advance width, defaulting to the font width. -/
theorem encodeStep_width (fd : FontDef) (cp : Int) (w : Int) (bs : List Nat)
    (h : encodeStep fd cp = some (w, bs)) :
    w = (lookupKV fd.charWidths cp).getD fd.fontWidth := by
  simp only [encodeStep] at h
  cases hr : resolveCharData fd cp with
  | none => rw [hr] at h; cases h
  | some d =>
    rw [hr] at h
    simp only [Option.map_eq_some'] at h
    obtain ⟨bs2, _, heq⟩ := h
    exact (Prod.mk.injEq _ _ _ _ ▸ heq).1.symm

/-- The encoding step fails when neither the requested codepoint nor the
space codepoint is mapped. -/
theorem encodeStep_none (fd : FontDef) (cp : Int)
    (hcp : lookupKV fd.charSet cp = none) (hsp : lookupKV fd.charSet 32 = none) :
    encodeStep fd cp = none := by
  simp [encodeStep, resolveCharData, hcp, hsp]

/-- The encoding loop fails whenever any requested codepoint's step
fails. -/
theorem encodeLoop_none (fd : FontDef) :
    ∀ (l : List Int) (st : EncState) (cp : Int),
      cp ∈ l → encodeStep fd cp = none → encodeLoop fd st l = none := by
  intro l
  induction l with
  | nil => intro st cp hmem; cases hmem
  | cons x rest ih =>
    intro st cp hmem hstep
    rcases List.mem_cons.mp hmem with hx | hx
    · subst hx
      simp [encodeLoop, hstep]
    · simp only [encodeLoop]
      cases hs : encodeStep fd x with
      | none => rfl
      | some wb =>
        obtain ⟨w, bs⟩ := wb
        simp only []
        exact ih _ cp hx hstep

/-- The omitCharIndex flag a successful encoding loop returns is the
incoming flag conjoined with the byte-width-class test on every
requested codepoint. -/
theorem encodeLoop_omitIdx (fd : FontDef) :
    ∀ (l : List Int) (st st' : EncState),
      encodeLoop fd st l = some st' →
      st'.omitIdx = (st.omitIdx && l.all (fun cp =>
        decide (byteClassPy ((lookupKV fd.charWidths cp).getD fd.fontWidth) =
          byteClassPy fd.fontWidth))) := by
  intro l
  induction l with
  | nil =>
    intro st st' h
    simp only [encodeLoop, Option.some_inj] at h
    subst h
    simp
  | cons cp rest ih =>
    intro st st' h
    simp only [encodeLoop] at h
    cases hs : encodeStep fd cp with
    | none => rw [hs] at h; cases h
    | some wb =>
      obtain ⟨w, bs⟩ := wb
      rw [hs] at h
      simp only [] at h
      rw [ih _ _ h]
      simp only [List.all_cons]
      rw [← encodeStep_width fd cp w bs hs]
      simp [Bool.and_assoc]

/-- The widths block a successful encoding loop returns extends the
incoming block with the looked-up advance width of every requested
codepoint in order. -/
theorem encodeLoop_widths (fd : FontDef) :
    ∀ (l : List Int) (st st' : EncState),
      encodeLoop fd st l = some st' →
      st'.widths = st.widths ++ l.map (fun cp =>
        (lookupKV fd.charWidths cp).getD fd.fontWidth) := by
  intro l
  induction l with
  | nil =>
    intro st st' h
    simp only [encodeLoop, Option.some_inj] at h
    subst h
    simp
  | cons cp rest ih =>
    intro st st' h
    simp only [encodeLoop] at h
    cases hs : encodeStep fd cp with
    | none => rw [hs] at h; cases h
    | some wb =>
      obtain ⟨w, bs⟩ := wb
      rw [hs] at h
      simp only [] at h
      rw [ih _ _ h]
      simp only [List.map_cons]
      rw [← encodeStep_width fd cp w bs hs]
      simp

/-- A mapM over Option that succeeds produces one result per input. -/
theorem mapM_some_length {α β : Type} (f : α → Option β) :
    ∀ (l : List α) (rs : List β), l.mapM f = some rs → rs.length = l.length := by
  intro l
  induction l with
  | nil =>
    intro rs h
    simp only [List.mapM_nil, Option.pure_def, Option.some_inj] at h
    subst h
    rfl
  | cons a rest ih =>
    intro rs h
    rw [List.mapM_cons] at h
    cases ha : f a with
    | none => rw [ha] at h; cases h
    | some b =>
      rw [ha] at h
      cases hm : rest.mapM f with
      | none => rw [hm] at h; cases h
      | some rs2 =>
        rw [hm] at h
        simp only [Option.pure_def, Option.bind_eq_bind, Option.some_bind,
          Option.some_inj] at h
        subst h
        simp [ih rs2 hm]

/-- A successful encoding loop is the mapM of the per-codepoint step
over the requested range: the data block extends the incoming one with
the concatenated per-codepoint bytes and the width block with the
per-codepoint widths, in range order. -/
theorem encodeLoop_mapM (fd : FontDef) :
    ∀ (l : List Int) (st st' : EncState), encodeLoop fd st l = some st' →
      ∃ rs : List (Int × List Nat), l.mapM (encodeStep fd) = some rs ∧
        st'.data = st.data ++ (rs.map Prod.snd).flatten ∧
        st'.widths = st.widths ++ rs.map Prod.fst := by
  intro l
  induction l with
  | nil =>
    intro st st' h
    simp only [encodeLoop, Option.some_inj] at h
    subst h
    exact ⟨[], rfl, by simp, by simp⟩
  | cons cp rest ih =>
    intro st st' h
    simp only [encodeLoop] at h
    cases hs : encodeStep fd cp with
    | none => rw [hs] at h; cases h
    | some wb =>
      obtain ⟨w, bs⟩ := wb
      rw [hs] at h
      simp only [] at h
      obtain ⟨rs, hmap, hdata, hwid⟩ := ih _ _ h
      refine ⟨(w, bs) :: rs, ?_, ?_, ?_⟩
      · rw [List.mapM_cons, hs, hmap]
        rfl
      · rw [hdata]
        simp [List.append_assoc]
      · rw [hwid]
        simp [List.append_assoc]

/-- C7: the 32-bit bit-order reversal performed during row packing is
self-inverse: for every 32-bit word, applying the reversal twice yields
the original word. -/
theorem C7_bitRev32_involutive (x : Nat) (h : x < 2 ^ 32) :
    bitRev32 (bitRev32 x) = x := by
  apply Nat.eq_of_testBit_eq
  intro i
  rw [testBit_bitRev32]
  by_cases hi : i < 32
  · rw [if_pos hi, testBit_bitRev32, if_pos (by omega)]
    congr 1
    omega
  · rw [if_neg hi]
    exact (Nat.testBit_lt_two_pow (lt_of_lt_of_le h
      (Nat.pow_le_pow_right (by norm_num) (by omega)))).symm

/-- Witness for C7 at the 32-bit word 0xDEADBEEF. -/
theorem C7_witness :
    0xDEADBEEF < 2 ^ 32 ∧ bitRev32 (bitRev32 0xDEADBEEF) = 0xDEADBEEF :=
  ⟨by norm_num, C7_bitRev32_involutive 0xDEADBEEF (by norm_num)⟩

/-- C2: the encoder emits exactly one of three layouts: a monospaced
font gets only the packed data (no width table, no index); a
proportional font gets the width table, and the index exactly when some
requested codepoint's stored advance width has a byte-width class
ceil(advanceWidth/8) different from the cell's class ceil(cellWidth/8)
(codepoints absent from the width map count as cell width and never
differ). -/
theorem C2_layout_selection (fd : FontDef) (l : List Int) (out : EncodedFont)
    (h : formatFontData fd l = some out) :
    (fd.fontMonospaced = true → out.emitWidths = false ∧ out.emitIndex = false) ∧
    (fd.fontMonospaced = false → out.emitWidths = true ∧
      (out.emitIndex = false ↔
        ∀ cp ∈ l, ∀ w : Int, lookupKV fd.charWidths cp = some w →
          ceilDiv8 w = ceilDiv8 fd.fontWidth)) := by
  simp only [formatFontData] at h
  cases hloop : encodeLoop fd ⟨[], [], [], 0, true⟩ l with
  | none => rw [hloop] at h; cases h
  | some st =>
    rw [hloop] at h
    simp only [] at h
    have homit := encodeLoop_omitIdx fd l _ _ hloop
    simp only [Bool.true_and] at homit
    have hbridge : (l.all (fun cp =>
        decide (byteClassPy ((lookupKV fd.charWidths cp).getD fd.fontWidth) =
          byteClassPy fd.fontWidth)) = true) ↔
        (∀ cp ∈ l, ∀ w : Int, lookupKV fd.charWidths cp = some w →
          ceilDiv8 w = ceilDiv8 fd.fontWidth) := by
      rw [List.all_eq_true]
      constructor
      · intro hall cp hcp w hw
        have hq := hall cp hcp
        rw [decide_eq_true_eq] at hq
        rw [hw, Option.getD_some] at hq
        rw [ceilDiv8_eq_iff]
        exact hq
      · intro hall cp hcp
        rw [decide_eq_true_eq]
        cases hw : lookupKV fd.charWidths cp with
        | none => rw [Option.getD_none]
        | some w =>
          rw [Option.getD_some]
          have hq := hall cp hcp w hw
          rw [ceilDiv8_eq_iff] at hq
          exact hq
    constructor
    · intro hm
      rw [hm, if_pos rfl] at h
      simp only [Option.some_inj] at h
      subst h
      exact ⟨rfl, rfl⟩
    · intro hm
      rw [hm] at h
      simp only [Bool.false_eq_true, if_false] at h
      cases ho : st.omitIdx with
      | true =>
        rw [ho, if_pos rfl] at h
        simp only [Option.some_inj] at h
        subst h
        refine ⟨rfl, ?_⟩
        simp only [true_iff]
        exact hbridge.mp (by rw [← homit, ho])
      | false =>
        rw [ho] at h
        simp only [Bool.false_eq_true, if_false, Option.some_inj] at h
        subst h
        refine ⟨rfl, ?_⟩
        simp only [Bool.true_eq_false, false_iff]
        intro hall
        have := hbridge.mpr hall
        rw [← homit, ho] at this
        cases this

/-- Witness for C2 on the concrete proportional font c1fd and codepoint
list [0x41]. -/
theorem C2_witness :
    (c1fd.fontMonospaced = true → c1out.emitWidths = false ∧ c1out.emitIndex = false) ∧
    (c1fd.fontMonospaced = false → c1out.emitWidths = true ∧
      (c1out.emitIndex = false ↔
        ∀ cp ∈ [(65 : Int)], ∀ w : Int, lookupKV c1fd.charWidths cp = some w →
          ceilDiv8 w = ceilDiv8 c1fd.fontWidth)) :=
  C2_layout_selection c1fd [65] c1out (by decide)

/-- C4: the monospaced flag is initialised to true when the font-wide
bounding box is read; a successful glyph parse clears it exactly when
the processed portion of the block declares an advance width different
from the cell width (or it was already clear); and once false it stays
false for the rest of the character loop. -/
theorem C4_monospaced_contract :
    (∀ (lines : List BdfLine) (fd : FontDef) (rest : List BdfLine),
      parseFontHeader lines = some (fd, rest) → fd.fontMonospaced = true) ∧
    (∀ (fd : FontDef) (block : List BdfLine) (fd' : FontDef),
      parseFontCharBDF fd block = some fd' →
      (fd'.fontMonospaced = false ↔
        fd.fontMonospaced = false ∨ dwidthDiffersB fd.fontWidth block = true)) ∧
    (∀ (lines : List BdfLine) (fd : FontDef) (mode : Option (List BdfLine)) (fd' : FontDef),
      fd.fontMonospaced = false →
      parseFontChars fd mode lines = some fd' → fd'.fontMonospaced = false) := by
  refine ⟨parseFontHeader_monoTrue, ?_, parseFontChars_monoFalse⟩
  intro fd block fd' h
  rw [parseFontCharBDF_mono fd block fd' h]
  cases hm : fd.fontMonospaced <;> cases hd : dwidthDiffersB fd.fontWidth block <;> simp

/-- Witness for C4 on a concrete glyph block declaring advance width 6
against cell width 8. -/
theorem C4_witness :
    c4out.fontMonospaced = false ↔
      c4fd.fontMonospaced = false ∨ dwidthDiffersB c4fd.fontWidth c4block = true :=
  C4_monospaced_contract.2.1 c4fd c4block c4out (by decide)

/-- C10: when the glyph mapping lacks the space codepoint 0x20,
requesting any codepoint absent from the mapping makes the encoder fail
(the space lookup errors) instead of producing output. -/
theorem C10_missing_space (fd : FontDef) (l : List Int) (cp : Int)
    (hsp : lookupKV fd.charSet 32 = none) (hmem : cp ∈ l)
    (hcp : lookupKV fd.charSet cp = none) :
    formatFontData fd l = none := by
  simp only [formatFontData]
  rw [encodeLoop_none fd l _ cp hmem (encodeStep_none fd cp hcp hsp)]

/-- Witness for C10 on a concrete font lacking the space glyph. -/
theorem C10_witness :
    lookupKV c10fd.charSet 32 = none ∧ (66 : Int) ∈ [(65 : Int), 66] ∧
    lookupKV c10fd.charSet 66 = none ∧ formatFontData c10fd [65, 66] = none :=
  ⟨by decide, by decide, by decide,
   C10_missing_space c10fd [65, 66] 66 (by decide) (by decide) (by decide)⟩

/-- C6: a glyph block whose bounding-box declaration carries a negative
horizontal offset makes the glyph parser return without adding any
entry to the glyph mapping and without an error, and any codepoint
absent from a glyph mapping later resolves to the space glyph. -/
theorem C6_negative_offset_skip (fd : FontDef) (pre : List BdfLine) (bs : List Int)
    (o : Int) (rest : List BdfLine)
    (hall : pre.all plainHeaderLine = true)
    (hb : bs[2]? = some o) (ho : o < 0) :
    (∃ fd', parseFontCharBDF fd (pre ++ .bbx bs :: rest) = some fd' ∧
      fd'.charSet = fd.charSet ∧ fd'.charWidths = fd.charWidths) ∧
    (∀ (fd₂ : FontDef) (cp : Int), lookupKV fd₂.charSet cp = none →
      resolveCharData fd₂ cp = lookupKV fd₂.charSet 32) := by
  constructor
  · obtain ⟨m, hm⟩ := parseFontCharBDF_skipped fd pre bs o rest hall hb ho
    exact ⟨_, hm, rfl, rfl⟩
  · intro fd₂ cp hcp
    simp [resolveCharData, hcp]

/-- Witness for C6 on a concrete negative-offset glyph block. -/
theorem C6_witness :
    (∃ fd', parseFontCharBDF c1fd
        ([BdfLine.encoding 66] ++ .bbx [8, 6, -1, 0] :: [BdfLine.bitmap]) = some fd' ∧
      fd'.charSet = c1fd.charSet ∧ fd'.charWidths = c1fd.charWidths) ∧
    (∀ (fd₂ : FontDef) (cp : Int), lookupKV fd₂.charSet cp = none →
      resolveCharData fd₂ cp = lookupKV fd₂.charSet 32) :=
  C6_negative_offset_skip c1fd [BdfLine.encoding 66] [8, 6, -1, 0] (-1)
    [BdfLine.bitmap] (by decide) (by decide) (by decide)

/-- C9: skipping a negative-offset glyph is not free of side effects on
the font definition: when a DWIDTH line declaring a width different from
the cell width precedes the negative-offset BBX line, the monospaced
flag is cleared even though no entry is added to the glyph mapping. -/
theorem C9_skip_side_effect (fd : FontDef) (pre mid rest : List BdfLine)
    (ss bs : List Int) (w o : Int)
    (hpre : pre.all plainHeaderLine = true) (hmid : mid.all plainHeaderLine = true)
    (hw : ss[0]? = some w) (hne : w ≠ fd.fontWidth)
    (hb : bs[2]? = some o) (ho : o < 0) :
    ∃ fd', parseFontCharBDF fd (pre ++ .dwidth ss :: (mid ++ .bbx bs :: rest)) = some fd' ∧
      fd'.fontMonospaced = false ∧ fd'.charSet = fd.charSet ∧
      fd'.charWidths = fd.charWidths := by
  have hssne : ss.isEmpty = false := by
    cases ss with
    | nil => simp at hw
    | cons a tail => rfl
  have hall2 : (pre ++ .dwidth ss :: mid).all plainHeaderLine = true := by
    rw [List.all_append]
    simp only [hpre, List.all_cons, plainHeaderLine, hssne, hmid]
    rfl
  have hassoc : (pre ++ BdfLine.dwidth ss :: mid) ++ .bbx bs :: rest =
      pre ++ .dwidth ss :: (mid ++ .bbx bs :: rest) := by
    simp [List.append_assoc]
  obtain ⟨m, hm⟩ := parseFontCharBDF_skipped fd (pre ++ .dwidth ss :: mid) bs o rest
    hall2 hb ho
  rw [hassoc] at hm
  have hdif : dwidthDiffersB fd.fontWidth
      (pre ++ .dwidth ss :: (mid ++ .bbx bs :: rest)) = true := by
    apply dwidthDiffersB_append_plain _ pre _ hpre
    simp only [dwidthDiffersB, hw]
    simp [hne]
  have hmono := parseFontCharBDF_mono fd _ _ hm
  rw [hdif] at hmono
  simp only [Bool.not_true, Bool.and_false] at hmono
  exact ⟨_, hm, hmono, rfl, rfl⟩

/-- Witness for C9 on a concrete block where DWIDTH 6 precedes a
negative-offset BBX in an 8 pixel wide font. -/
theorem C9_witness :
    ∃ fd', parseFontCharBDF c1fd
        ([BdfLine.encoding 66] ++ .dwidth [6] ::
          ([BdfLine.other] ++ .bbx [8, 6, -1, 0] :: [BdfLine.bitmap])) = some fd' ∧
      fd'.fontMonospaced = false ∧ fd'.charSet = c1fd.charSet ∧
      fd'.charWidths = c1fd.charWidths :=
  C9_skip_side_effect c1fd [BdfLine.encoding 66] [BdfLine.other] [BdfLine.bitmap]
    [6] [8, 6, -1, 0] 6 (-1) (by decide) (by decide) (by decide) (by decide)
    (by decide) (by decide)

/-- C5: every glyph newly stored by a successful glyph parse consists of
one packed row per cell row, each of exactly ceil(cellWidth/8) bytes
(for cells of 1 to 32 pixels); and the encoder's data-copying loops emit
exactly the first ceil(advanceWidth/8) bytes of each stored row. -/
theorem C5_row_shape :
    (∀ (fd : FontDef) (block : List BdfLine) (fd' : FontDef) (cp : Int) (bytes : List Nat),
      1 ≤ fd.fontWidth → fd.fontWidth ≤ 32 →
      parseFontCharBDF fd block = some fd' →
      lookupKV fd'.charSet cp = some bytes →
      lookupKV fd.charSet cp = some bytes ∨
        ∃ rows : List (List Nat), bytes = rows.flatten ∧
          rows.length = fd.fontHeight.toNat ∧
          ∀ r ∈ rows, r.length = (ceilDiv8 fd.fontWidth).toNat) ∧
    (∀ (fw fh cw : Int) (b : List Nat), 1 ≤ fw → 1 ≤ cw →
      ceilDiv8 cw ≤ ceilDiv8 fw →
      b.length = fh.toNat * (ceilDiv8 fw).toNat →
      emitCharBytes fw fh cw b =
        some (((List.range fh.toNat).map (fun i =>
          (b.drop (i * (ceilDiv8 fw).toNat)).take (ceilDiv8 cw).toNat)).flatten)) := by
  constructor
  · intro fd block fd' cp bytes h1 h2 hp hl
    rcases parseFontCharBDF_stored fd block fd' cp bytes hp hl with hleft | ⟨rows, hb, hlen, hrows⟩
    · exact Or.inl hleft
    · refine Or.inr ⟨rows, hb, hlen, ?_⟩
      intro r hr
      rw [hrows r hr]
      exact rowLen_eq_ceil h1 h2
  · intro fw fh cw b h1 h2 hle hlen
    have hcf : (ceilDiv8 fw).toNat = (byteClassPy fw + 1).toNat := by rw [ceilDiv8_eq]
    have hcc : (ceilDiv8 cw).toNat = (byteClassPy cw + 1).toNat := by rw [ceilDiv8_eq]
    have hleN : (byteClassPy cw + 1).toNat ≤ (byteClassPy fw + 1).toNat := by
      rw [← hcf, ← hcc]
      exact Int.toNat_le_toNat hle
    have hlenN : b.length = fh.toNat * (byteClassPy fw + 1).toNat := by
      rw [← hcf]
      exact hlen
    rw [hcf, hcc]
    exact emitCharBytes_slices fw fh cw b h1 hleN hlenN

/-- Witness for C5: the 8 x 1 font stores a one-byte row for codepoint
0x41, and a four-pixel advance width trims a one-byte row to its first
byte. -/
theorem C5_witness :
    (lookupKV c5fd.charSet 65 = some [1] ∨
      ∃ rows : List (List Nat), [1] = rows.flatten ∧
        rows.length = c5fd.fontHeight.toNat ∧
        ∀ r ∈ rows, r.length = (ceilDiv8 c5fd.fontWidth).toNat) ∧
    emitCharBytes 8 1 4 [7] =
      some (((List.range (1 : Int).toNat).map (fun i =>
        (([7] : List Nat).drop (i * (ceilDiv8 8).toNat)).take (ceilDiv8 4).toNat)).flatten) :=
  ⟨C5_row_shape.1 c5fd c5block c5out 65 [1] (by decide) (by decide) (by decide) (by decide),
   C5_row_shape.2 8 1 4 [7] (by decide) (by decide) (by decide) (by decide)⟩

/-- C1 counterexample: on the proportional font c1fd, whose space glyph
has advance width 4, the width-table entry generated for the unmapped
codepoint 0x41 is the cell width 8, not the space glyph's advance
width 4; the claim as stated is false. -/
theorem C1_counterexample :
    formatFontData c1fd [65] = some c1out ∧ c1out.charWidths = [8] ∧
    lookupKV c1fd.charWidths 32 = some 4 ∧ ((8 : Int) ≠ 4) :=
  ⟨by decide, by decide, by decide, by decide⟩

/-- C1 amended: for every requested output range and every occurrence
in it of a codepoint absent from the glyph mapping (and the width
mapping), the encoder's output segment for that occurrence equals
byte-for-byte the space glyph's stored packed bytes in full, while the
advance-width table entry at that position equals the font's cell width
fontWidth, the default for unmapped codepoints — not the space glyph's
advance width. -/
theorem C1_amended (fd : FontDef) (l l1 l2 : List Int) (out : EncodedFont)
    (cp : Int) (sb : List Nat)
    (hsplit : l = l1 ++ cp :: l2)
    (hcw : lookupKV fd.charWidths cp = none)
    (hcs : lookupKV fd.charSet cp = none)
    (hsp : lookupKV fd.charSet 32 = some sb)
    (hfw : 1 ≤ fd.fontWidth)
    (hlen : sb.length = fd.fontHeight.toNat * (ceilDiv8 fd.fontWidth).toNat)
    (hout : formatFontData fd l = some out) :
    ∃ (ds1 ds2 : List (List Nat)) (ws1 ws2 : List Int),
      out.charData = ds1.flatten ++ sb ++ ds2.flatten ∧
      out.charWidths = ws1 ++ fd.fontWidth :: ws2 ∧
      ds1.length = l1.length ∧ ws1.length = l1.length := by
  have hlenN : sb.length = fd.fontHeight.toNat * (byteClassPy fd.fontWidth + 1).toNat := by
    rw [← ceilDiv8_eq]
    exact hlen
  have hstep : encodeStep fd cp = some (fd.fontWidth, sb) := by
    simp only [encodeStep, resolveCharData, hcs, hsp, hcw, Option.getD_none]
    rw [emitCharBytes_full fd.fontWidth fd.fontHeight sb hfw hlenN]
    rfl
  simp only [formatFontData] at hout
  cases hloop : encodeLoop fd ⟨[], [], [], 0, true⟩ l with
  | none => rw [hloop] at hout; cases hout
  | some st =>
    rw [hloop] at hout
    simp only [] at hout
    have hfields : out.charData = st.data ∧ out.charWidths = st.widths := by
      by_cases hm : fd.fontMonospaced
      · rw [if_pos hm] at hout
        simp only [Option.some_inj] at hout
        subst hout
        exact ⟨rfl, rfl⟩
      · rw [if_neg hm] at hout
        by_cases ho : st.omitIdx
        · rw [if_pos ho] at hout
          simp only [Option.some_inj] at hout
          subst hout
          exact ⟨rfl, rfl⟩
        · rw [if_neg ho] at hout
          simp only [Option.some_inj] at hout
          subst hout
          exact ⟨rfl, rfl⟩
    obtain ⟨hdata0, hwid0⟩ := hfields
    obtain ⟨rs, hmap, hdata, hwid⟩ := encodeLoop_mapM fd l _ _ hloop
    subst hsplit
    rw [List.mapM_append] at hmap
    cases h1 : l1.mapM (encodeStep fd) with
    | none => rw [h1] at hmap; simp at hmap
    | some rs1 =>
      rw [h1] at hmap
      rw [List.mapM_cons, hstep] at hmap
      cases h2 : l2.mapM (encodeStep fd) with
      | none => rw [h2] at hmap; simp at hmap
      | some rs2 =>
        rw [h2] at hmap
        simp only [Option.pure_def, Option.bind_eq_bind, Option.some_bind,
          Option.some_inj] at hmap
        refine ⟨rs1.map Prod.snd, rs2.map Prod.snd, rs1.map Prod.fst,
          rs2.map Prod.fst, ?_, ?_, ?_, ?_⟩
        · rw [hdata0, hdata, ← hmap]
          simp [List.map_append, List.flatten_append, List.append_assoc]
        · rw [hwid0, hwid, ← hmap]
          simp [List.map_append]
        · rw [List.length_map, mapM_some_length _ l1 rs1 h1]
        · rw [List.length_map, mapM_some_length _ l1 rs1 h1]

/-- Witness for the amended C1: in the three-codepoint range
[0x41, 0x20, 0x42] on the concrete font c1fd, the occurrence of the
unmapped codepoint 0x41 at position 0. -/
theorem C1_amended_witness :
    ∃ (ds1 ds2 : List (List Nat)) (ws1 ws2 : List Int),
      c1outB.charData = ds1.flatten ++ [0] ++ ds2.flatten ∧
      c1outB.charWidths = ws1 ++ c1fd.fontWidth :: ws2 ∧
      ds1.length = ([] : List Int).length ∧ ws1.length = ([] : List Int).length :=
  C1_amended c1fd [65, 32, 66] [] [32, 66] c1outB 65 [0] (by decide) (by decide)
    (by decide) (by decide) (by decide) (by decide) (by decide)

/-- C3 counterexample: on the scenario font the glyph parser stores
rows [00, 00, 3C, 42, 42, 7E, 42, 42] (two top padding rows, no bottom
padding), not the claimed [00, 3C, 42, 42, 7E, 42, 42, 00]; the
bit-reversed row values themselves are confirmed palindromic. -/
theorem C3_counterexample :
    parseFontBDF c3lines = some c3fdExpected ∧
    lookupKV c3fdExpected.charSet 65 =
      some [0x00, 0x00, 0x3C, 0x42, 0x42, 0x7E, 0x42, 0x42] ∧
    bitRev32 (0x3C <<< 24) = 0x3C ∧ bitRev32 (0x42 <<< 24) = 0x42 ∧
    bitRev32 (0x7E <<< 24) = 0x7E ∧
    (some [0x00, 0x00, 0x3C, 0x42, 0x42, 0x7E, 0x42, 0x42] ≠
      (some [0x00, 0x3C, 0x42, 0x42, 0x7E, 0x42, 0x42, 0x00] : Option (List Nat))) :=
  ⟨by decide, by decide, by decide, by decide, by decide, by decide⟩

/-- C3 amended: on the scenario font (cellWidth 8, cellHeight 8,
baseline 1, glyph 0x41 with bounding box (8, 6, 0, -1)), padLower =
baseline + vertical offset = 0 and padUpper = 2, so the parser stores
rows 0 and 1 as 0x00 and rows 2 through 7 as the bit-reversed hex
values; there is no bottom padding row. -/
theorem C3_amended :
    parseFontBDF c3lines = some c3fdExpected ∧
    lookupKV c3fdExpected.charSet 65 =
      some ([0x00, 0x00] ++ [0x3C, 0x42, 0x42, 0x7E, 0x42, 0x42]) :=
  ⟨by decide, by decide⟩

/-- C8 counterexample: a font whose 40 pixel cell needs five bytes of
row storage is not rejected: it parses (with rows silently truncated to
four bytes) and the encoder still produces output for its 8 pixel wide
glyph. -/
theorem C8_counterexample :
    parseFontBDF c8lines = some c8fdExpected ∧
    formatFontData c8fdExpected [32] = some c8outExpected ∧
    (32 : Int) < c8fdExpected.fontWidth ∧ ceilDiv8 c8fdExpected.fontWidth = 5 ∧
    lookupKV c8fdExpected.charSet 32 = some [1, 0, 0, 0] :=
  ⟨by decide, by decide, by decide, by decide, by decide⟩

/-- C8 amended: the implementation performs no explicit width check;
for cells wider than 32 pixels every newly stored glyph's packed rows
are silently truncated to four bytes each, strictly fewer than the
ceil(cellWidth/8) bytes the cell needs, and encoding may still succeed
on such data. -/
theorem C8_amended (fd : FontDef) (block : List BdfLine) (fd' : FontDef)
    (cp : Int) (bytes : List Nat)
    (hfw : 32 < fd.fontWidth)
    (hp : parseFontCharBDF fd block = some fd')
    (hl : lookupKV fd'.charSet cp = some bytes) :
    lookupKV fd.charSet cp = some bytes ∨
      ∃ rows : List (List Nat), bytes = rows.flatten ∧
        rows.length = fd.fontHeight.toNat ∧
        (∀ r ∈ rows, r.length = 4) ∧ (4 : Int) < ceilDiv8 fd.fontWidth := by
  rcases parseFontCharBDF_stored fd block fd' cp bytes hp hl with hleft | ⟨rows, hb, hlen, hrows⟩
  · exact Or.inl hleft
  · obtain ⟨h4, hlt⟩ := rowLen_eq_four hfw
    refine Or.inr ⟨rows, hb, hlen, ?_, hlt⟩
    intro r hr
    rw [hrows r hr, h4]

/-- Witness for the amended C8 on the concrete 40 pixel wide font. -/
theorem C8_amended_witness :
    lookupKV c8fdStart.charSet 32 = some [1, 0, 0, 0] ∨
      ∃ rows : List (List Nat), [1, 0, 0, 0] = rows.flatten ∧
        rows.length = c8fdStart.fontHeight.toNat ∧
        (∀ r ∈ rows, r.length = 4) ∧ (4 : Int) < ceilDiv8 c8fdStart.fontWidth :=
  C8_amended c8fdStart c8block c8fdExpected 32 [1, 0, 0, 0]
    (by decide) (by decide) (by decide)

end FontGen
